import Mathlib

/-!
Shallow embedding of the signal-analysis primitives of `pdkit/utils.py`
over exact rationals, together with theorems checking the repository's
specification claims against the code.

Modelling conventions:
* Python lists / numpy 1-d arrays become `List ℚ`.
* numpy elementwise arithmetic becomes `List.map` / map-over-`List.range`
  with `getD` indexing.
* `scipy.signal.correlate(a, b, 'full')` (= `np.correlate(a, b, 'full')`)
  is modelled by its defining sum: output index `k` (for
  `0 ≤ k < len a + len b - 1`) holds `∑ j, a[j] * b[j - k + (len b - 1)]`,
  out-of-range reads contributing `0`.
* `sys.exit` / `raise IOError` on invalid input become `Except.error`.
-/

namespace Pdkit

/-- Read a list at a signed index, with `0` outside the range
(the convention under which the full-correlation sum is written). -/
def getZ (a : List ℚ) (i : ℤ) : ℚ :=
  if i < 0 then 0 else a.getD i.toNat 0

/-- `scipy.signal.correlate(a, b, 'full')`: cross-correlation of `a` and `b`,
all `len a + len b - 1` lags. -/
def correlateFull (a b : List ℚ) : List ℚ :=
  (List.range (a.length + b.length - 1)).map (fun (k : ℕ) =>
    ∑ j ∈ Finset.range a.length,
      a.getD j 0 * getZ b ((j : ℤ) - (k : ℤ) + ((b.length : ℤ) - 1)))

/-- `numerical_integration(signal, sampling_frequency)` from `utils.py`:
`integrate = sum(signal[1:]) / sampling_frequency + sum(signal[:-1])`
then `integrate /= sampling_frequency * 2`. -/
def numerical_integration (signal : List ℚ) (sampling_frequency : ℚ) : ℚ :=
  ((signal.drop 1).sum / sampling_frequency + signal.dropLast.sum) /
    (sampling_frequency * 2)

/-- `np.mean` of a 1-d array (division by zero yields `0` on the empty list,
matching ℚ's total division; numpy would give `nan`). -/
def npMean (signal : List ℚ) : ℚ := signal.sum / signal.length

/-- `np.var` of a 1-d array: mean of squared deviations from the mean. -/
def npVar (signal : List ℚ) : ℚ :=
  (signal.map (fun x => (x - npMean signal) ^ 2)).sum / signal.length

/-- `autocorrelation(signal)` from `utils.py`: centre the signal, take the
last `n` entries of the full self-correlation, and divide elementwise by
`variance * np.arange(n, 0, -1)`. -/
def autocorrelation (signal : List ℚ) : List ℚ :=
  let n := signal.length
  let variance := npVar signal
  let centered := signal.map (fun x => x - npMean signal)
  let full := correlateFull centered centered
  let r := full.drop (full.length - n)
  (List.range r.length).map (fun k =>
    r.getD k 0 / (variance * ((n : ℚ) - (k : ℚ))))

/-- `np.max` of a 1-d array (`0` on the empty array, where numpy errors). -/
def npMax (l : List ℚ) : ℚ :=
  match l with
  | [] => 0
  | h :: t => t.foldl max h

/-- `np.linspace(a, b, n)`: `n` evenly spaced points from `a` to `b`
inclusive. -/
def linspace (a b : ℚ) (n : ℕ) : List ℚ :=
  if n = 1 then [a]
  else (List.range n).map (fun k => a + (b - a) * (k : ℚ) / ((n : ℚ) - 1))

/-- `autocorrelate(data, unbias, normalize)` from `utils.py`.  The Python
parameters are `None` or numbers; they are modelled as `Option ℤ`.  Note
`if unbias:` / `if normalize:` are Python truthiness tests, so `0` (like
`None`) skips the block without raising. `raise IOError` becomes
`Except.error`. -/
def autocorrelate (data : List ℚ) (unbias normalize : Option ℤ) :
    Except String (List ℚ × ℕ) :=
  let coefficients := correlateFull data data
  let size := coefficients.length / 2
  let c := coefficients.drop size
  let N := c.length
  let afterUnbias : Except String (List ℚ) :=
    match unbias with
    | none => Except.ok c
    | some u =>
      if u = 0 then Except.ok c
      else if u = 1 then
        Except.ok ((List.range N).map (fun k => c.getD k 0 / ((N : ℚ) - (k : ℚ))))
      else if u = 2 then
        let coefficient_ratio := c.getD 0 0 / c.getD (N - 1) 0
        Except.ok ((List.range N).map (fun k =>
          c.getD k 0 / (linspace coefficient_ratio 1 N).getD k 0))
      else Except.error "unbias should be set to 1, 2, or None"
  match afterUnbias with
  | Except.error e => Except.error e
  | Except.ok c =>
    match normalize with
    | none => Except.ok (c, N)
    | some m =>
      if m = 0 then Except.ok (c, N)
      else if m = 1 then
        Except.ok (c.map (fun v => v / |c.getD 0 0|), N)
      else if m = 2 then
        Except.ok (c.map (fun v => v / npMax (c.map (fun x => |x|))), N)
      else Except.error "normalize should be set to 1, 2, or None"

/-- `crossings_nonzero_pos2neg(data)` from `utils.py`: positivity mask,
then indices where the mask goes `True → False`
(`(pos[:-1] & ~pos[1:]).nonzero()`). -/
def crossings_nonzero_pos2neg (data : List ℚ) : List ℕ :=
  let pos := data.map (fun v => decide (0 < v))
  (List.range (data.length - 1)).filter
    (fun i => pos.getD i false && !(pos.getD (i + 1) false))

/-- State of the `peakdet` scan loop.  `mx`/`mn` pair the running extreme
value with its position; `none` encodes the initial
`mx = -inf, mxpos = nan` (resp. `mn = inf, mnpos = nan`), under which
`this > mx` (resp. `this < mn`) always holds and
`this < mx - delta` (resp. `this > mn + delta`) never does. -/
structure PeakState where
  maxtab : List (ℚ × ℚ)
  mintab : List (ℚ × ℚ)
  mx : Option (ℚ × ℚ)
  mn : Option (ℚ × ℚ)
  lookformax : Bool
deriving Repr, DecidableEq

/-- Initial `peakdet` state. -/
def peakInit : PeakState :=
  { maxtab := [], mintab := [], mx := none, mn := none, lookformax := true }

/-- One iteration of the `peakdet` loop body, on the pair
`(x[i], v[i])`. -/
def peakStep (delta : ℚ) (s : PeakState) (p : ℚ × ℚ) : PeakState :=
  let xi := p.1
  let this := p.2
  let mx := match s.mx with
    | none => some (xi, this)
    | some (mp, mv) => if mv < this then some (xi, this) else some (mp, mv)
  let mn := match s.mn with
    | none => some (xi, this)
    | some (np, nv) => if this < nv then some (xi, this) else some (np, nv)
  if s.lookformax then
    match mx with
    | some (mp, mv) =>
      if this < mv - delta then
        { maxtab := s.maxtab ++ [(mp, mv)], mintab := s.mintab,
          mx := some (mp, mv), mn := some (xi, this), lookformax := false }
      else
        { s with mx := mx, mn := mn }
    | none => { s with mx := mx, mn := mn }
  else
    match mn with
    | some (np, nv) =>
      if nv + delta < this then
        { maxtab := s.maxtab, mintab := s.mintab ++ [(np, nv)],
          mx := some (xi, this), mn := some (np, nv), lookformax := true }
      else
        { s with mx := mx, mn := mn }
    | none => { s with mx := mx, mn := mn }

/-- `peakdet(signal, delta, x)` from `utils.py`.  The `sys.exit` calls on
invalid input are modelled as `Except.error` results; `delta` being a
scalar is enforced by its type `ℚ`. -/
def peakdet (signal : List ℚ) (delta : ℚ) (x : Option (List ℚ)) :
    Except String (List (ℚ × ℚ) × List (ℚ × ℚ)) :=
  let xs := match x with
    | none => (List.range signal.length).map (fun (i : ℕ) => (i : ℚ))
    | some xs => xs
  if signal.length ≠ xs.length then
    Except.error "Input vectors v and x must have same length"
  else if delta ≤ 0 then
    Except.error "Input argument delta must be positive"
  else
    let final := (xs.zip signal).foldl (peakStep delta) peakInit
    Except.ok (final.maxtab, final.mintab)

/-- `scipy.fftpack.fftfreq(n, d)`: sample frequencies
`[0, 1, ..., (n-1)/2, -(n/2), ..., -1] / (n*d)`. -/
def fftfreq (n : ℕ) (d : ℚ) : List ℚ :=
  (List.range n).map (fun i =>
    (if i ≤ (n - 1) / 2 then (i : ℚ) else (i : ℚ) - (n : ℚ)) / ((n : ℚ) * d))

/-- `scipy.fftpack.rfft` specialized to length-4 input, where the DFT
twiddle factors are exactly `±1, ±i` so the spectrum is rational:
output layout `[y0, Re y1, Im y1, y2]` with `y_k = ∑ x_j e^{-2πijk/4}`. -/
def rfft4 (x0 x1 x2 x3 : ℚ) : List ℚ :=
  [x0 + x1 + x2 + x3, x0 - x2, x3 - x1, x0 - x1 + x2 - x3]

/-- `np.argsort(l)`: the indices of `l` sorted by ascending value
(modelled by insertion sort; numpy's quicksort agrees whenever the values
are pairwise distinct). -/
def argsort (l : List ℚ) : List ℕ :=
  List.insertionSort (fun i j => l.getD i 0 ≤ l.getD j 0) (List.range l.length)

/-- `np.round` to the nearest integer, halves to the nearest even
integer (IEEE round-half-even, numpy's rule). -/
def npRound (q : ℚ) : ℤ :=
  let f := ⌊q⌋
  let r := q - (f : ℚ)
  if r < 1 / 2 then f
  else if 1 / 2 < r then f + 1
  else if f % 2 = 0 then f else f + 1

/-- `compute_interpeak(data, sample_rate)` from `utils.py`, specialized to
length-4 signals (the only lengths at which the DFT is exactly rational):
`freqs = fftfreq(4, 1/sample_rate)`, `f_signal = rfft(data)`,
`imax_freq = argsort(f_signal)[-2]`, `freq = |freqs[imax_freq]|`,
result `int(round(sample_rate / freq))`.  The source performs the final
division unguarded; at `freq = 0` numpy produces `inf` and the `int`
conversion fails, modelled as `none`. -/
def compute_interpeak4 (x0 x1 x2 x3 sample_rate : ℚ) : Option ℤ :=
  let freqs := fftfreq 4 (1 / sample_rate)
  let f_signal := rfft4 x0 x1 x2 x3
  let sorted := argsort f_signal
  let imax_freq := sorted.getD (sorted.length - 2) 0
  let freq := |freqs.getD imax_freq 0|
  if freq = 0 then none
  else some (npRound (sample_rate / freq))

/-- The spec's words for the inter-peak estimator, for refinement
comparison with `compute_interpeak4`: select the bin whose spectrum entry
has the *second-largest magnitude* (rather than the second-largest signed
value), then return `round(sample_rate / |frequency of that bin|)`. -/
def interpeakSpecSecondMagnitude4 (x0 x1 x2 x3 sample_rate : ℚ) : Option ℤ :=
  let freqs := fftfreq 4 (1 / sample_rate)
  let f_signal := rfft4 x0 x1 x2 x3
  let sorted := argsort (f_signal.map (fun v => |v|))
  let imax_freq := sorted.getD (sorted.length - 2) 0
  let freq := |freqs.getD imax_freq 0|
  if freq = 0 then none
  else some (npRound (sample_rate / freq))

/-! ### Helper lemmas -/

lemma getD_map_of_lt (f : ℚ → ℚ) (l : List ℚ) (i : ℕ) (h : i < l.length) :
    (l.map f).getD i 0 = f (l.getD i 0) := by
  simp [List.getD_eq_getElem?_getD, List.getElem?_map,
    List.getElem?_eq_getElem (by simpa using h : i < (l.map f).length),
    List.getElem?_eq_getElem h]

lemma getD_map_decide (l : List ℚ) (i : ℕ) (h : i < l.length) :
    (l.map (fun v => decide (0 < v))).getD i false = decide (0 < l.getD i 0) := by
  simp [List.getD_eq_getElem?_getD, List.getElem?_map,
    List.getElem?_eq_getElem h]

lemma getD_range_map (f : ℕ → ℚ) (n i : ℕ) (h : i < n) :
    (((List.range n).map f).getD i 0) = f i := by
  simp [List.getD_eq_getElem?_getD, List.getElem?_map, List.getElem?_range h]

lemma getD_drop (l : List ℚ) (k i : ℕ) :
    (l.drop k).getD i 0 = l.getD (k + i) 0 := by
  simp [List.getD_eq_getElem?_getD, List.getElem?_drop]

lemma getZ_natCast (a : List ℚ) (j : ℕ) : getZ a (j : ℤ) = a.getD j 0 := by
  simp [getZ]

lemma sum_getD (l : List ℚ) :
    l.sum = ∑ j ∈ Finset.range l.length, l.getD j 0 := by
  induction l with
  | nil => simp
  | cons h t ih =>
      rw [List.sum_cons, List.length_cons, Finset.sum_range_succ', ih]
      simp [add_comm]

lemma correlateFull_length (a b : List ℚ) :
    (correlateFull a b).length = a.length + b.length - 1 := by
  simp [correlateFull]

lemma correlateFull_getD (a b : List ℚ) (k : ℕ)
    (h : k < a.length + b.length - 1) :
    (correlateFull a b).getD k 0 =
      ∑ j ∈ Finset.range a.length,
        a.getD j 0 * getZ b ((j : ℤ) - (k : ℤ) + ((b.length : ℤ) - 1)) := by
  unfold correlateFull
  exact getD_range_map _ _ _ h

/-- The tail half kept by `autocorrelate` holds, at index `k`, the lag-`k`
sum `∑ j, a[j] * a[j-k]`. -/
lemma kept_getD (a : List ℚ) (k : ℕ) (hk : k < a.length) :
    ((correlateFull a a).drop ((correlateFull a a).length / 2)).getD k 0 =
      ∑ j ∈ Finset.range a.length, a.getD j 0 * getZ a ((j : ℤ) - (k : ℤ)) := by
  have hn : 1 ≤ a.length := Nat.one_le_iff_ne_zero.mpr (by omega)
  rw [getD_drop, correlateFull_length]
  have hidx : (a.length + a.length - 1) / 2 + k = (a.length - 1) + k := by omega
  rw [hidx, correlateFull_getD a a _ (by omega)]
  apply Finset.sum_congr rfl
  intro j hj
  congr 2
  push_cast [Nat.cast_sub hn]
  ring

/-! ### C2: numerical integration of a constant signal -/

/-- **C2, counterexample.**  For the constant signal `[1, 1]` (`c = 1`,
`N = 2`) at sample rate `r = 2`, `numerical_integration` returns `3/8`,
not the claimed `c × (N−1) / r = 1/2`: the code divides the
all-but-first sum by the sample rate *twice*. -/
theorem c2_counterexample :
    numerical_integration [1, 1] 2 = 3 / 8 ∧
      (3 / 8 : ℚ) ≠ 1 * ((2 : ℚ) - 1) / 2 := by
  constructor
  · norm_num [numerical_integration]
  · norm_num

/-- **C2, amended.**  For every constant signal of value `c` and length
`N` and every sample rate `r > 0`, `numerical_integration` equals
`c × (N−1) × (1 + r) / (2 × r²)` (exactly, over ℚ): the all-but-first
sum is divided by `r` both inside the bracket and again by the final
`/ (2r)`. -/
theorem c2_amended (c : ℚ) (n : ℕ) (r : ℚ) (h : 0 < r) :
    numerical_integration (List.replicate n c) r =
      c * ((n - 1 : ℕ) : ℚ) * (1 + r) / (2 * r ^ 2) := by
  have hr : r ≠ 0 := ne_of_gt h
  unfold numerical_integration
  have h1 : List.drop 1 (List.replicate n c) = List.replicate (n - 1) c :=
    List.drop_replicate c 1 n
  have h2 : (List.replicate n c).dropLast = List.replicate (n - 1) c := by
    rw [List.dropLast_eq_take, List.length_replicate, List.take_replicate,
      min_eq_left (Nat.sub_le n 1)]
  rw [h1, h2, List.sum_replicate, nsmul_eq_mul]
  field_simp
  ring

/-- **C2, witness.** -/
theorem c2_witness :
    (0 : ℚ) < 2 ∧
      numerical_integration (List.replicate 2 (1 : ℚ)) 2 =
        1 * ((2 - 1 : ℕ) : ℚ) * (1 + 2) / (2 * 2 ^ 2) :=
  ⟨by norm_num, c2_amended 1 2 2 (by norm_num)⟩

/-! ### C7: positive-to-negative zero crossings -/

/-- **C7, confirmed.**  `crossings_nonzero_pos2neg` returns exactly the
ascending indices `i` with `signal[i] > 0` and `signal[i+1] ≤ 0`, and on
`[1, 2, -1, -2, 3]` it returns `[1]`. -/
theorem c7_crossings (signal : List ℚ) :
    (∀ i : ℕ,
        i ∈ crossings_nonzero_pos2neg signal ↔
          i + 1 < signal.length ∧ 0 < signal.getD i 0 ∧
            signal.getD (i + 1) 0 ≤ 0) ∧
    (crossings_nonzero_pos2neg signal).Pairwise (· < ·) ∧
    crossings_nonzero_pos2neg [1, 2, -1, -2, 3] = [1] := by
  refine ⟨?_, ?_, by decide⟩
  · intro i
    unfold crossings_nonzero_pos2neg
    rw [List.mem_filter, List.mem_range]
    constructor
    · rintro ⟨hi, hp⟩
      have hi1 : i + 1 < signal.length := by omega
      have hi0 : i < signal.length := by omega
      rw [getD_map_decide signal i hi0, getD_map_decide signal (i + 1) hi1] at hp
      simp only [Bool.and_eq_true, Bool.not_eq_true', decide_eq_true_eq,
        decide_eq_false_iff_not, not_lt] at hp
      exact ⟨hi1, hp.1, hp.2⟩
    · rintro ⟨hi1, hpos, hneg⟩
      have hi0 : i < signal.length := by omega
      refine ⟨by omega, ?_⟩
      rw [getD_map_decide signal i hi0, getD_map_decide signal (i + 1) hi1]
      simp only [Bool.and_eq_true, Bool.not_eq_true', decide_eq_true_eq,
        decide_eq_false_iff_not, not_lt]
      exact ⟨hpos, hneg⟩
  · exact (List.pairwise_lt_range _).filter _

/-! ### C8: peakdet input validation -/

/-- **C8, confirmed.**  `peakdet` yields an error result exactly when the
positions sequence length differs from the signal length or `delta ≤ 0`;
otherwise it returns normally.  (The third condition of the claim —
`delta` not being a scalar — is enforced by the embedding's scalar type
`ℚ` for `delta` and cannot fail here.) -/
theorem c8_peakdet_validation (signal : List ℚ) (delta : ℚ)
    (x : Option (List ℚ)) :
    (peakdet signal delta x).isOk = true ↔
      ((∀ xs, x = some xs → xs.length = signal.length) ∧ 0 < delta) := by
  unfold peakdet
  cases x with
  | none =>
      dsimp only
      rw [if_neg (by simp)]
      by_cases hd : delta ≤ 0
      · rw [if_pos hd]
        exact iff_of_false (by simp [Except.isOk, Except.toBool])
          (fun h => absurd h.2 (not_lt.mpr hd))
      · rw [if_neg hd]
        exact iff_of_true (by simp [Except.isOk, Except.toBool])
          ⟨fun xs hxs => Option.noConfusion hxs, not_le.mp hd⟩
  | some xs =>
      dsimp only
      by_cases hlen : signal.length ≠ xs.length
      · rw [if_pos hlen]
        exact iff_of_false (by simp [Except.isOk, Except.toBool])
          (fun h => hlen ((h.1 xs rfl).symm))
      · rw [if_neg hlen]
        by_cases hd : delta ≤ 0
        · rw [if_pos hd]
          exact iff_of_false (by simp [Except.isOk, Except.toBool])
            (fun h => absurd h.2 (not_lt.mpr hd))
        · rw [if_neg hd]
          exact iff_of_true (by simp [Except.isOk, Except.toBool])
            ⟨fun ys hys => by cases hys; exact (not_ne_iff.mp hlen).symm,
             not_le.mp hd⟩

/-! ### C1: constant signals produce no peaks -/

/-- On a constant-valued scan, every `peakStep` keeps the tables empty,
keeps `lookformax` set, and keeps the running extrema at the constant
value. -/
lemma peakStep_const_invariant (delta c : ℚ) (hd : 0 < delta) :
    ∀ l : List (ℚ × ℚ), (∀ p ∈ l, p.2 = c) →
      ∀ s : PeakState, s.maxtab = [] → s.mintab = [] → s.lookformax = true →
        (s.mx = none ∨ ∃ q, s.mx = some (q, c)) →
        (s.mn = none ∨ ∃ q, s.mn = some (q, c)) →
        (l.foldl (peakStep delta) s).maxtab = [] ∧
          (l.foldl (peakStep delta) s).mintab = [] := by
  intro l
  induction l with
  | nil => intro _ s h1 h2 _ _ _; exact ⟨h1, h2⟩
  | cons p t ih =>
      intro hall s h1 h2 h3 hmx hmn
      have hpc : p.2 = c := hall p (List.mem_cons_self p t)
      have hclt : ¬ (c < c - delta) := by linarith
      rw [List.foldl_cons]
      refine ih (fun q hq => hall q (List.mem_cons_of_mem p hq)) _ ?_ ?_ ?_ ?_ ?_ <;>
        · unfold peakStep
          rcases hmx with hmx | ⟨q, hmx⟩ <;> rcases hmn with hmn | ⟨q', hmn⟩ <;>
            simp [hmx, hmn, hpc, h1, h2, h3, hclt, lt_self_iff_false]

/-- **C1, confirmed.**  For every constant signal and every `delta > 0`,
`peakdet` returns empty maxima and empty minima. -/
theorem c1_peakdet_constant (n : ℕ) (c delta : ℚ) (hd : 0 < delta) :
    peakdet (List.replicate n c) delta none = Except.ok ([], []) := by
  unfold peakdet
  dsimp only
  rw [if_neg (by simp), if_neg (not_le.mpr hd)]
  have hall : ∀ p ∈ (((List.range (List.replicate n c).length).map
      (fun (i : ℕ) => (i : ℚ))).zip (List.replicate n c)), p.2 = c := by
    rintro ⟨a, b⟩ hp
    exact List.eq_of_mem_replicate (List.of_mem_zip hp).2
  obtain ⟨hm1, hm2⟩ := peakStep_const_invariant delta c hd _ hall peakInit
    rfl rfl rfl (Or.inl rfl) (Or.inl rfl)
  rw [hm1, hm2]

/-- **C1, witness.** -/
theorem c1_witness :
    (0 : ℚ) < 1 ∧
      peakdet (List.replicate 3 (5 : ℚ)) 1 none = Except.ok ([], []) :=
  ⟨by norm_num, c1_peakdet_constant 3 5 1 (by norm_num)⟩

/-! ### C10: maxima and minima alternate, maximum first -/

/-- Alternation invariant of the `peakdet` scan: while hunting for a
maximum the two tables have equal length; while hunting for a minimum the
maxima table is exactly one entry longer.  Because each step appends at
most one record and flips the mode exactly when it appends, this
invariant at every prefix says the confirmed extrema strictly alternate,
beginning with a maximum. -/
def altInv (s : PeakState) : Prop :=
  (s.lookformax = true → s.maxtab.length = s.mintab.length) ∧
  (s.lookformax = false → s.maxtab.length = s.mintab.length + 1)

lemma altInv_peakInit : altInv peakInit := by
  constructor <;> intro h <;> simp [peakInit] at h ⊢

lemma altInv_peakStep (delta : ℚ) (s : PeakState) (p : ℚ × ℚ)
    (h : altInv s) : altInv (peakStep delta s p) := by
  obtain ⟨h1, h2⟩ := h
  rcases s with ⟨mt, nt, mx, mn, lf⟩
  simp only at h1 h2
  unfold peakStep
  rcases lf <;> rcases mx with _ | ⟨mp, mv⟩ <;> rcases mn with _ | ⟨np', nv⟩ <;>
    dsimp only <;> split_ifs <;> (try dsimp only) <;> (try split_ifs) <;>
    simp_all [altInv, List.length_append]

lemma altInv_foldl (delta : ℚ) :
    ∀ (l : List (ℚ × ℚ)) (s : PeakState), altInv s →
      altInv (l.foldl (peakStep delta) s) := by
  intro l
  induction l with
  | nil => intro s h; exact h
  | cons p t ih =>
      intro s h
      rw [List.foldl_cons]
      exact ih _ (altInv_peakStep delta s p h)

/-- **C10, confirmed.**  Every prefix of any `peakdet` scan satisfies the
alternation invariant `altInv` (extrema strictly alternate, beginning
with a maximum), and consequently on every normal return the number of
maxima minus the number of minima is `0` or `1`. -/
theorem c10_alternation (signal : List ℚ) (delta : ℚ) (x : Option (List ℚ))
    (maxtab mintab : List (ℚ × ℚ))
    (h : peakdet signal delta x = Except.ok (maxtab, mintab)) :
    (∀ l : List (ℚ × ℚ), altInv (l.foldl (peakStep delta) peakInit)) ∧
    mintab.length ≤ maxtab.length ∧ maxtab.length ≤ mintab.length + 1 := by
  have hall : ∀ l : List (ℚ × ℚ), altInv (l.foldl (peakStep delta) peakInit) :=
    fun l => altInv_foldl delta l peakInit altInv_peakInit
  refine ⟨hall, ?_⟩
  have key : ∀ L : List (ℚ × ℚ),
      (L.foldl (peakStep delta) peakInit).maxtab = maxtab →
      (L.foldl (peakStep delta) peakInit).mintab = mintab →
      mintab.length ≤ maxtab.length ∧ maxtab.length ≤ mintab.length + 1 := by
    intro L hA hB
    obtain ⟨g1, g2⟩ := hall L
    rw [hA, hB] at g1 g2
    cases hflag : (L.foldl (peakStep delta) peakInit).lookformax
    · rw [g2 hflag]; omega
    · rw [g1 hflag]; omega
  unfold peakdet at h
  rcases x with _ | xs <;> dsimp only at h
  · rw [if_neg (by simp)] at h
    by_cases hd : delta ≤ 0
    · rw [if_pos hd] at h; exact absurd h (by simp)
    · rw [if_neg hd] at h
      simp only [Except.ok.injEq, Prod.mk.injEq] at h
      exact key _ h.1 h.2
  · by_cases hlen : signal.length ≠ xs.length
    · rw [if_pos hlen] at h; exact absurd h (by simp)
    · rw [if_neg hlen] at h
      by_cases hd : delta ≤ 0
      · rw [if_pos hd] at h; exact absurd h (by simp)
      · rw [if_neg hd] at h
        simp only [Except.ok.injEq, Prod.mk.injEq] at h
        exact key _ h.1 h.2

/-- **C10, witness.** -/
theorem c10_witness :
    peakdet [0, 2, 0] 1 none = Except.ok ([((1 : ℚ), (2 : ℚ))], []) ∧
      ((∀ l : List (ℚ × ℚ), altInv (l.foldl (peakStep 1) peakInit)) ∧
        ([] : List (ℚ × ℚ)).length ≤ [((1 : ℚ), (2 : ℚ))].length ∧
        [((1 : ℚ), (2 : ℚ))].length ≤ ([] : List (ℚ × ℚ)).length + 1) :=
  ⟨by norm_num [peakdet, peakStep, peakInit, List.range_succ],
   c10_alternation [0, 2, 0] 1 none _ _
     (by norm_num [peakdet, peakStep, peakInit, List.range_succ])⟩

/-! ### C3: the no-op form of autocorrelate -/

/-- **C3, counterexample.**  For `data = [1, 2]` the full self-correlation
is `[2, 5, 2]` (size 3), and `autocorrelate data None None` returns the
kept tail `[5, 2]` together with `N = 2` — the number of *kept*
coefficients — whereas the claim says `N = ⌊3/2⌋ = 1`. -/
theorem c3_counterexample :
    autocorrelate [1, 2] none none = Except.ok ([5, 2], 2) ∧
      (correlateFull [1, 2] [1, 2]).length / 2 ≠ 2 := by
  constructor
  · norm_num [autocorrelate, correlateFull, getZ, List.range_succ,
      Finset.sum_range_succ]
  · norm_num [correlateFull]

/-- **C3, amended.**  `autocorrelate(data, None, None)` returns exactly
the second half of the full self-correlation (from the midpoint onward),
together with `N` equal to the number of *kept* coefficients,
`size − ⌊size/2⌋ = ⌈size/2⌉`, which equals the signal length — not
`⌊size/2⌋`. -/
theorem c3_amended (data : List ℚ) (h : 0 < data.length) :
    autocorrelate data none none =
      Except.ok ((correlateFull data data).drop
        ((correlateFull data data).length / 2), data.length) := by
  simp only [autocorrelate, Except.ok.injEq, Prod.mk.injEq, true_and]
  rw [List.length_drop, correlateFull_length]
  omega

/-- **C3, witness.** -/
theorem c3_witness :
    0 < ([1, 2] : List ℚ).length ∧
      autocorrelate [1, 2] none none =
        Except.ok ((correlateFull [1, 2] [1, 2]).drop
          ((correlateFull [1, 2] [1, 2]).length / 2),
          ([1, 2] : List ℚ).length) :=
  ⟨by norm_num, c3_amended [1, 2] (by norm_num)⟩

/-! ### C9: autocorrelate parameter validation -/

/-- **C9, counterexample.**  `unbias = 0` and `normalize = 0` lie outside
`{None, 1, 2}`, yet `autocorrelate` returns normally: Python's
`if unbias:` / `if normalize:` treat `0` as falsy and skip the whole
block, including its validation `raise`. -/
theorem c9_counterexample :
    autocorrelate [1] (some 0) (some 0) = Except.ok ([1], 1) := by
  norm_num [autocorrelate, correlateFull, getZ, List.range_succ,
    Finset.sum_range_succ]

/-- **C9, amended.**  For nonempty data, `autocorrelate` returns an error
exactly when `unbias ∉ {None, 0, 1, 2}` or `normalize ∉ {None, 0, 1, 2}`:
the value `0` is treated like `None` by Python truthiness instead of
being rejected.  (Nonempty data is assumed so that the model's total
`getD` indexing agrees with the source, which would hit an `IndexError`
on empty input in the `unbias = 2` branch.) -/
theorem c9_amended (data : List ℚ) (u v : Option ℤ) (h : 0 < data.length) :
    (autocorrelate data u v).isOk = true ↔
      ((u = none ∨ u = some 0 ∨ u = some 1 ∨ u = some 2) ∧
       (v = none ∨ v = some 0 ∨ v = some 1 ∨ v = some 2)) := by
  rcases u with _ | u' <;> rcases v with _ | v' <;>
    simp only [autocorrelate] <;> (try dsimp only) <;>
    (try split_ifs) <;> (try dsimp only) <;> (try split_ifs) <;>
    simp_all [Except.isOk, Except.toBool]

/-- **C9, witness.** -/
theorem c9_witness :
    0 < ([1] : List ℚ).length ∧
      ((autocorrelate [1] (some 3) none).isOk = true ↔
        (((some 3 : Option ℤ) = none ∨ (some 3 : Option ℤ) = some 0 ∨
          (some 3 : Option ℤ) = some 1 ∨ (some 3 : Option ℤ) = some 2) ∧
         ((none : Option ℤ) = none ∨ (none : Option ℤ) = some 0 ∨
          (none : Option ℤ) = some 1 ∨ (none : Option ℤ) = some 2))) :=
  ⟨by norm_num, c9_amended [1] (some 3) none (by norm_num)⟩

/-! ### C4: the normalized-variance autocorrelation at lag 0 -/

lemma autocorrelation_length (signal : List ℚ) (h : signal.length ≠ 0) :
    (autocorrelation signal).length = signal.length := by
  unfold autocorrelation
  simp only [List.length_map, List.length_range, List.length_drop,
    correlateFull_length]
  omega

lemma npVar_mul_length (signal : List ℚ) (h : signal.length ≠ 0) :
    npVar signal * (signal.length : ℚ) =
      ∑ j ∈ Finset.range signal.length,
        (signal.getD j 0 - npMean signal) ^ 2 := by
  have hsum : (signal.map (fun x => (x - npMean signal) ^ 2)).sum =
      ∑ j ∈ Finset.range signal.length,
        (signal.getD j 0 - npMean signal) ^ 2 := by
    rw [sum_getD, List.length_map]
    exact Finset.sum_congr rfl (fun j hj =>
      getD_map_of_lt _ signal j (Finset.mem_range.mp hj))
  rw [npVar, hsum]
  exact div_mul_cancel₀ _ (by exact_mod_cast h)

lemma autocorrelation_getD0 (signal : List ℚ) (h1 : 1 ≤ signal.length) :
    (autocorrelation signal).getD 0 0 =
      (∑ j ∈ Finset.range signal.length,
          (signal.getD j 0 - npMean signal) ^ 2) /
        (npVar signal * (signal.length : ℚ)) := by
  have hclen : (signal.map (fun x => x - npMean signal)).length =
      signal.length := List.length_map _ _
  have hfull : (correlateFull (signal.map (fun x => x - npMean signal))
      (signal.map (fun x => x - npMean signal))).length =
        signal.length + signal.length - 1 := by
    rw [correlateFull_length, hclen]
  unfold autocorrelation
  rw [getD_range_map _ _ 0
    (by simp only [List.length_drop, hfull]; omega), getD_drop, hfull]
  have hidx : signal.length + signal.length - 1 - signal.length + 0 =
      signal.length - 1 := by omega
  rw [hidx, correlateFull_getD _ _ _ (by rw [hclen]; omega)]
  have hsum : ∑ j ∈ Finset.range
        (signal.map (fun x => x - npMean signal)).length,
      (signal.map (fun x => x - npMean signal)).getD j 0 *
        getZ (signal.map (fun x => x - npMean signal))
          ((j : ℤ) - ((signal.length - 1 : ℕ) : ℤ) +
            (((signal.map (fun x => x - npMean signal)).length : ℤ) - 1)) =
      ∑ j ∈ Finset.range signal.length,
        (signal.getD j 0 - npMean signal) ^ 2 := by
    rw [hclen]
    refine Finset.sum_congr rfl (fun j hj => ?_)
    have hj' : j < signal.length := Finset.mem_range.mp hj
    have hcast : (j : ℤ) - ((signal.length - 1 : ℕ) : ℤ) +
        ((signal.length : ℤ) - 1) = (j : ℤ) := by
      rw [Nat.cast_sub h1]
      ring
    rw [hcast, getZ_natCast, getD_map_of_lt _ signal j hj']
    ring
  rw [hsum]
  norm_num

/-- **C4, confirmed.**  For every signal with nonzero variance,
`autocorrelation` returns a sequence of the same length as the input whose
lag-0 coefficient is exactly `1`: the lag-0 numerator is
`∑ (xⱼ − mean)²` and the divisor is `variance × n`, which are equal. -/
theorem c4_autocorrelation_lag0 (signal : List ℚ) (h : npVar signal ≠ 0) :
    (autocorrelation signal).length = signal.length ∧
    (autocorrelation signal).getD 0 0 = 1 := by
  have hn : signal.length ≠ 0 := by
    intro h0
    exact h (by simp [List.length_eq_zero.mp h0, npVar, npMean])
  have h1 : 1 ≤ signal.length := Nat.one_le_iff_ne_zero.mpr hn
  refine ⟨autocorrelation_length signal hn, ?_⟩
  rw [autocorrelation_getD0 signal h1, ← npVar_mul_length signal hn]
  have hne : npVar signal * (signal.length : ℚ) ≠ 0 :=
    mul_ne_zero h (by exact_mod_cast hn)
  exact div_self hne

/-- **C4, witness.** -/
theorem c4_witness :
    npVar [0, 2] ≠ 0 ∧
      ((autocorrelation [0, 2]).length = ([0, 2] : List ℚ).length ∧
        (autocorrelation [0, 2]).getD 0 0 = 1) :=
  ⟨by norm_num [npVar, npMean], c4_autocorrelation_lag0 [0, 2]
    (by norm_num [npVar, npMean])⟩

/-! ### C5: lag 0 versus the normalization policies -/

lemma le_foldl_max (t : List ℚ) (a : ℚ) : a ≤ t.foldl max a := by
  induction t generalizing a with
  | nil => exact le_refl a
  | cons h t ih => exact le_trans (le_max_left a h) (ih (max a h))

lemma le_foldl_max_of_mem (t : List ℚ) (a x : ℚ) (hx : x ∈ t) :
    x ≤ t.foldl max a := by
  induction t generalizing a with
  | nil => cases hx
  | cons h t ih =>
      rcases List.mem_cons.mp hx with rfl | hx'
      · exact le_trans (le_max_right a x) (le_foldl_max t (max a x))
      · exact ih _ hx'

lemma foldl_max_le (t : List ℚ) (a b : ℚ) (ha : a ≤ b)
    (ht : ∀ x ∈ t, x ≤ b) : t.foldl max a ≤ b := by
  induction t generalizing a with
  | nil => exact ha
  | cons h t ih =>
      exact ih (max a h)
        (max_le ha (ht h (List.mem_cons_self h t)))
        (fun x hx => ht x (List.mem_cons_of_mem _ hx))

lemma le_npMax_of_mem (l : List ℚ) (x : ℚ) (hx : x ∈ l) : x ≤ npMax l := by
  cases l with
  | nil => cases hx
  | cons h t =>
      rcases List.mem_cons.mp hx with rfl | hx'
      · exact le_foldl_max t x
      · exact le_foldl_max_of_mem t h x hx'

lemma npMax_le (l : List ℚ) (b : ℚ) (hne : l ≠ [])
    (h : ∀ x ∈ l, x ≤ b) : npMax l ≤ b := by
  cases l with
  | nil => exact absurd rfl hne
  | cons hd t =>
      exact foldl_max_le t hd b (h hd (List.mem_cons_self hd t))
        (fun x hx => h x (List.mem_cons_of_mem _ hx))

lemma foldl_max_map_div (S : ℚ) (hS : 0 < S) (t : List ℚ) (a : ℚ) :
    (t.map (fun x => x / S)).foldl max (a / S) = t.foldl max a / S := by
  induction t generalizing a with
  | nil => rfl
  | cons h t ih =>
      rw [List.map_cons, List.foldl_cons, List.foldl_cons,
        max_div_div_right (le_of_lt hS), ih]

lemma npMax_map_div (S : ℚ) (hS : 0 < S) (l : List ℚ) :
    npMax (l.map (fun x => x / S)) = npMax l / S := by
  cases l with
  | nil => simp [npMax]
  | cons h t =>
      simp only [npMax, List.map_cons]
      exact foldl_max_map_div S hS t h

/-- The shifted sum of squares is at most the plain sum of squares. -/
lemma getZ_sq_sum_le (a : List ℚ) (k : ℕ) (hk : k ≤ a.length) :
    ∑ j ∈ Finset.range a.length, getZ a ((j : ℤ) - (k : ℤ)) ^ 2 ≤
      ∑ j ∈ Finset.range a.length, a.getD j 0 ^ 2 := by
  have hsplit : ∑ j ∈ Finset.range a.length, getZ a ((j : ℤ) - (k : ℤ)) ^ 2 =
      ∑ j ∈ Finset.Ico 0 k, getZ a ((j : ℤ) - (k : ℤ)) ^ 2 +
        ∑ j ∈ Finset.Ico k a.length, getZ a ((j : ℤ) - (k : ℤ)) ^ 2 := by
    rw [Finset.range_eq_Ico,
      Finset.sum_Ico_consecutive _ (Nat.zero_le k) hk]
  have hzero : ∑ j ∈ Finset.Ico 0 k, getZ a ((j : ℤ) - (k : ℤ)) ^ 2 = 0 := by
    apply Finset.sum_eq_zero
    intro j hj
    have hjk : j < k := (Finset.mem_Ico.mp hj).2
    have : ((j : ℤ) - (k : ℤ)) < 0 := by
      have : (j : ℤ) < (k : ℤ) := by exact_mod_cast hjk
      omega
    simp [getZ, this]
  have htail : ∑ j ∈ Finset.Ico k a.length, getZ a ((j : ℤ) - (k : ℤ)) ^ 2 =
      ∑ j ∈ Finset.range (a.length - k), a.getD j 0 ^ 2 := by
    rw [Finset.sum_Ico_eq_sum_range]
    apply Finset.sum_congr rfl
    intro j _
    have : ((k + j : ℕ) : ℤ) - (k : ℤ) = (j : ℤ) := by push_cast; ring
    rw [this, getZ_natCast]
  rw [hsplit, hzero, htail, zero_add]
  exact Finset.sum_le_sum_of_subset_of_nonneg
    (Finset.range_subset.mpr (Nat.sub_le _ _))
    (fun i _ _ => sq_nonneg _)

lemma kept_length (a : List ℚ) :
    ((correlateFull a a).drop ((correlateFull a a).length / 2)).length =
      a.length := by
  rw [List.length_drop, correlateFull_length]
  omega

lemma kept_getD0 (a : List ℚ) (ha : 0 < a.length) :
    ((correlateFull a a).drop ((correlateFull a a).length / 2)).getD 0 0 =
      ∑ j ∈ Finset.range a.length, a.getD j 0 ^ 2 := by
  rw [kept_getD a 0 ha]
  apply Finset.sum_congr rfl
  intro j _
  have : (j : ℤ) - ((0 : ℕ) : ℤ) = (j : ℤ) := by push_cast; ring
  rw [this, getZ_natCast]
  ring

/-- Cauchy–Schwarz: every autocorrelation coefficient is bounded in
magnitude by the lag-0 coefficient. -/
lemma kept_abs_le (a : List ℚ) (k : ℕ) (hk : k < a.length) :
    |((correlateFull a a).drop ((correlateFull a a).length / 2)).getD k 0| ≤
      ((correlateFull a a).drop ((correlateFull a a).length / 2)).getD 0 0 := by
  have ha : 0 < a.length := lt_of_le_of_lt (Nat.zero_le k) hk
  rw [kept_getD a k hk, kept_getD0 a ha]
  set S := ∑ j ∈ Finset.range a.length, a.getD j 0 ^ 2 with hS
  have hS0 : 0 ≤ S := Finset.sum_nonneg (fun i _ => sq_nonneg _)
  have hcs : (∑ j ∈ Finset.range a.length,
      a.getD j 0 * getZ a ((j : ℤ) - (k : ℤ))) ^ 2 ≤ S * S := by
    calc (∑ j ∈ Finset.range a.length,
        a.getD j 0 * getZ a ((j : ℤ) - (k : ℤ))) ^ 2 ≤
        (∑ j ∈ Finset.range a.length, a.getD j 0 ^ 2) *
          (∑ j ∈ Finset.range a.length, getZ a ((j : ℤ) - (k : ℤ)) ^ 2) :=
        Finset.sum_mul_sq_le_sq_mul_sq _ _ _
      _ ≤ S * S := by
        exact mul_le_mul_of_nonneg_left (getZ_sq_sum_le a k (le_of_lt hk)) hS0
  nlinarith [abs_nonneg (∑ j ∈ Finset.range a.length,
      a.getD j 0 * getZ a ((j : ℤ) - (k : ℤ))),
    sq_abs (∑ j ∈ Finset.range a.length,
      a.getD j 0 * getZ a ((j : ℤ) - (k : ℤ)))]

lemma kept_lag0_pos (a : List ℚ) (h : ∃ x ∈ a, x ≠ 0) :
    0 < ((correlateFull a a).drop ((correlateFull a a).length / 2)).getD 0 0 := by
  obtain ⟨x, hx, hx0⟩ := h
  obtain ⟨i, hi, hxi⟩ := List.mem_iff_getElem.mp hx
  have ha : 0 < a.length := lt_of_le_of_lt (Nat.zero_le i) hi
  rw [kept_getD0 a ha]
  apply Finset.sum_pos' (fun j _ => sq_nonneg _)
  refine ⟨i, Finset.mem_range.mpr hi, ?_⟩
  have : a.getD i 0 = x := by rw [List.getD_eq_getElem a 0 hi, hxi]
  rw [this]
  positivity

/-- The maximum absolute autocorrelation coefficient is the lag-0 one. -/
lemma npMax_abs_kept (a : List ℚ) (ha : 0 < a.length) :
    npMax (((correlateFull a a).drop
        ((correlateFull a a).length / 2)).map (fun x => |x|)) =
      ((correlateFull a a).drop ((correlateFull a a).length / 2)).getD 0 0 := by
  set kept := (correlateFull a a).drop ((correlateFull a a).length / 2) with hk
  have hklen : kept.length = a.length := kept_length a
  have hne : kept.map (fun x => |x|) ≠ [] := by
    simp only [ne_eq, List.map_eq_nil_iff]
    intro h0
    rw [h0] at hklen
    simp at hklen
    omega
  apply le_antisymm
  · apply npMax_le _ _ hne
    intro x hx
    obtain ⟨v, hv, hvx⟩ := List.mem_map.mp hx
    obtain ⟨i, hi, hvi⟩ := List.mem_iff_getElem.mp hv
    have : v = kept.getD i 0 := by rw [List.getD_eq_getElem kept 0 hi, hvi]
    rw [← hvx, this]
    exact kept_abs_le a i (by omega)
  · have h00 : kept.getD 0 0 ≤ |kept.getD 0 0| := le_abs_self _
    refine le_trans h00 (le_npMax_of_mem _ _ ?_)
    exact List.mem_map.mpr ⟨kept.getD 0 0, by
      rw [List.getD_eq_getElem kept 0 (by omega)]
      exact List.getElem_mem _, rfl⟩

lemma autocorrelate_none_two (data : List ℚ) :
    autocorrelate data none (some 2) =
      Except.ok (((correlateFull data data).drop
          ((correlateFull data data).length / 2)).map
            (fun v => v / npMax (((correlateFull data data).drop
              ((correlateFull data data).length / 2)).map (fun x => |x|))),
        ((correlateFull data data).drop
          ((correlateFull data data).length / 2)).length) := by
  norm_num [autocorrelate]

lemma autocorrelate_none_one (data : List ℚ) :
    autocorrelate data none (some 1) =
      Except.ok (((correlateFull data data).drop
          ((correlateFull data data).length / 2)).map
            (fun v => v / |((correlateFull data data).drop
              ((correlateFull data data).length / 2)).getD 0 0|),
        ((correlateFull data data).drop
          ((correlateFull data data).length / 2)).length) := by
  norm_num [autocorrelate]

/-- **C5, counterexample.**  With the valid setting `unbias = 2`,
`normalize = 1`, the claim fails: on `[1, -1]`,
`autocorrelate([1,-1], 2, 1)` returns `[-1, -1]`, whose lag-0
coefficient is `-1`, not `1` — unbias policy 2 rescales lag 0 to
`c[0] / (c[0]/c[-1]) = c[-1] = data[0]·data[n-1]`, negative here, and
normalize 1 divides by its absolute value, leaving the sign. -/
theorem c5_counterexample :
    autocorrelate [1, -1] (some 2) (some 1) = Except.ok ([-1, -1], 2) ∧
      (-1 : ℚ) ≠ 1 := by
  constructor
  · norm_num [autocorrelate, correlateFull, getZ, linspace,
      List.range_succ, Finset.sum_range_succ,
      show ((0 : ℤ)).toNat = 0 from rfl, show ((1 : ℤ)).toNat = 1 from rfl,
      show ((2 : ℤ)).toNat = 2 from rfl]
  · norm_num

/-- **C5, amended.**  For `unbias = None` (the raw second-half
coefficients) and any signal with at least one nonzero sample, the
lag-0 coefficient returned by `autocorrelate` equals the
maximum-magnitude coefficient of the result when `normalize = 2` (both
are exactly `1`), and equals `1` when `normalize = 1`.  For the unbias
settings `1` and `2` the property fails (see the counterexample). -/
theorem c5_amended (data : List ℚ) (h : ∃ x ∈ data, x ≠ 0) :
    ∃ c2 c1 : List ℚ,
      autocorrelate data none (some 2) = Except.ok (c2, data.length) ∧
      c2.getD 0 0 = npMax (c2.map (fun v => |v|)) ∧ c2.getD 0 0 = 1 ∧
      autocorrelate data none (some 1) = Except.ok (c1, data.length) ∧
      c1.getD 0 0 = 1 := by
  obtain ⟨x, hx, hx0⟩ := h
  have ha : 0 < data.length := List.length_pos.mpr (List.ne_nil_of_mem hx)
  have hklen := kept_length data
  have hS : 0 < ((correlateFull data data).drop
      ((correlateFull data data).length / 2)).getD 0 0 :=
    kept_lag0_pos data ⟨x, hx, hx0⟩
  have hM := npMax_abs_kept data ha
  set kept := (correlateFull data data).drop
    ((correlateFull data data).length / 2) with hkdef
  have hkpos : 0 < kept.length := by omega
  refine ⟨kept.map (fun v => v / npMax (kept.map (fun y => |y|))),
          kept.map (fun v => v / |kept.getD 0 0|), ?_, ?_, ?_, ?_, ?_⟩
  · rw [autocorrelate_none_two data, ← hkdef, hklen]
  · rw [getD_map_of_lt _ kept 0 hkpos, hM]
    have hmapmap : (kept.map (fun v => v / kept.getD 0 0)).map
        (fun v => |v|) = (kept.map (fun y => |y|)).map
          (fun v => v / kept.getD 0 0) := by
      rw [List.map_map, List.map_map]
      apply List.map_congr_left
      intro v _
      simp only [Function.comp_apply]
      rw [abs_div, abs_of_pos hS]
    rw [hmapmap, npMax_map_div _ hS, hM, div_self (ne_of_gt hS)]
  · rw [getD_map_of_lt _ kept 0 hkpos, hM, div_self (ne_of_gt hS)]
  · rw [autocorrelate_none_one data, ← hkdef, hklen]
  · rw [getD_map_of_lt _ kept 0 hkpos, abs_of_pos hS,
      div_self (ne_of_gt hS)]

/-- **C5, witness.** -/
theorem c5_witness :
    (∃ x ∈ ([1, 0, 1] : List ℚ), x ≠ 0) ∧
      (∃ c2 c1 : List ℚ,
        autocorrelate [1, 0, 1] none (some 2) =
          Except.ok (c2, ([1, 0, 1] : List ℚ).length) ∧
        c2.getD 0 0 = npMax (c2.map (fun v => |v|)) ∧ c2.getD 0 0 = 1 ∧
        autocorrelate [1, 0, 1] none (some 1) =
          Except.ok (c1, ([1, 0, 1] : List ℚ).length) ∧
        c1.getD 0 0 = 1) :=
  ⟨⟨1, by norm_num, one_ne_zero⟩,
   c5_amended [1, 0, 1] ⟨1, by norm_num, one_ne_zero⟩⟩

/-! ### C6: the inter-peak estimator's bin selection -/

lemma argsort_spec (l : List ℚ) :
    (argsort l).Perm (List.range l.length) ∧
      List.Sorted (fun i j => l.getD i 0 ≤ l.getD j 0) (argsort l) := by
  letI : IsTotal ℕ (fun i j => l.getD i 0 ≤ l.getD j 0) :=
    ⟨fun a b => le_total _ _⟩
  letI : IsTrans ℕ (fun i j => l.getD i 0 ≤ l.getD j 0) :=
    ⟨fun a b c hab hbc => le_trans hab hbc⟩
  exact ⟨List.perm_insertionSort _ _, List.sorted_insertionSort _ _⟩

lemma argsort_length (l : List ℚ) : (argsort l).length = l.length := by
  unfold argsort
  rw [List.length_insertionSort, List.length_range]

lemma argsort_getD_lt (l : List ℚ) (m : ℕ) (hm : m < l.length) :
    (argsort l).getD m 0 < l.length := by
  obtain ⟨hperm, -⟩ := argsort_spec l
  have hmem : (argsort l).getD m 0 ∈ argsort l := by
    rw [List.getD_eq_getElem (argsort l) 0 (by rw [argsort_length]; omega)]
    exact List.getElem_mem _
  exact List.mem_range.mp (hperm.mem_iff.mp hmem)

lemma value_ne_of_index_ne (l : List ℚ) (hdist : l.Pairwise (· ≠ ·))
    {a b : ℕ} (ha : a < l.length) (hb : b < l.length) (hab : a ≠ b) :
    l.getD a 0 ≠ l.getD b 0 := by
  rw [List.getD_eq_getElem l 0 ha, List.getD_eq_getElem l 0 hb]
  rcases Nat.lt_or_ge a b with h | h
  · exact List.pairwise_iff_getElem.mp hdist a b ha hb h
  · exact (List.pairwise_iff_getElem.mp hdist b a hb ha (by omega)).symm

/-- The index at position `n-2` of the ascending argsort points at the
entry with the *second-largest (signed) value*: exactly one other entry
is strictly greater. -/
lemma argsort_penultimate (l : List ℚ) (h2 : 2 ≤ l.length)
    (hdist : l.Pairwise (· ≠ ·)) :
    ((List.range l.length).filter (fun j =>
        decide (l.getD ((argsort l).getD (l.length - 2) 0) 0 <
          l.getD j 0))).length = 1 := by
  obtain ⟨hperm, hsorted⟩ := argsort_spec l
  have hlen : (argsort l).length = l.length := argsort_length l
  have hne : argsort l ≠ [] := by
    intro h0; rw [h0] at hlen; simp at hlen; omega
  have hnodup : (argsort l).Nodup :=
    hperm.nodup_iff.mpr (List.nodup_range l.length)
  have hrel : ∀ a b, a < (argsort l).length → b < (argsort l).length →
      a < b → l.getD ((argsort l).getD a 0) 0 ≤
        l.getD ((argsort l).getD b 0) 0 := by
    intro a b ha hb hab
    have h := List.pairwise_iff_getElem.mp hsorted a b ha hb hab
    rwa [List.getD_eq_getElem (argsort l) 0 ha,
      List.getD_eq_getElem (argsort l) 0 hb]
  have hfilterperm := (hperm.symm).filter (fun j =>
    decide (l.getD ((argsort l).getD (l.length - 2) 0) 0 < l.getD j 0))
  rw [List.Perm.length_eq hfilterperm]
  have hdrop : (argsort l).dropLast.filter (fun j =>
      decide (l.getD ((argsort l).getD (l.length - 2) 0) 0 <
        l.getD j 0)) = [] := by
    rw [List.filter_eq_nil_iff]
    intro x hx
    obtain ⟨m, hm, hxm⟩ := List.mem_iff_getElem.mp hx
    have hm1 : m < l.length - 1 := by
      rw [List.length_dropLast, hlen] at hm; omega
    have hxs : x = (argsort l).getD m 0 := by
      rw [List.getD_eq_getElem (argsort l) 0 (by omega), ← hxm,
        List.getElem_dropLast]
    simp only [decide_eq_true_eq]
    rw [hxs]
    by_cases hm2 : m = l.length - 2
    · rw [hm2]; exact lt_irrefl _
    · exact not_lt.mpr (hrel m (l.length - 2) (by omega) (by omega)
        (by omega))
  have hlastval : (argsort l).getLast hne = (argsort l).getD (l.length - 2 + 1) 0 := by
    rw [List.getLast_eq_getElem, List.getD_eq_getElem (argsort l) 0 (by omega)]
    congr 1
    omega
  have hlastp : l.getD ((argsort l).getD (l.length - 2) 0) 0 <
      l.getD ((argsort l).getLast hne) 0 := by
    rw [hlastval]
    refine lt_of_le_of_ne (hrel _ _ (by omega) (by omega) (by omega)) ?_
    apply value_ne_of_index_ne l hdist
      (argsort_getD_lt l _ (by omega)) (argsort_getD_lt l _ (by omega))
    intro heq
    have ha : l.length - 2 < (argsort l).length := by omega
    have hb : l.length - 2 + 1 < (argsort l).length := by omega
    rw [List.getD_eq_getElem (argsort l) 0 ha,
      List.getD_eq_getElem (argsort l) 0 hb] at heq
    have := (List.Nodup.getElem_inj_iff hnodup).mp heq
    omega
  have hsplit : (argsort l).dropLast ++ [(argsort l).getLast hne] = argsort l :=
    List.dropLast_append_getLast hne
  have hstep : List.filter (fun j =>
      decide (l.getD ((argsort l).getD (l.length - 2) 0) 0 < l.getD j 0))
        (argsort l) =
      List.filter (fun j =>
        decide (l.getD ((argsort l).getD (l.length - 2) 0) 0 < l.getD j 0))
        ((argsort l).dropLast ++ [(argsort l).getLast hne]) :=
    congrArg _ hsplit.symm
  rw [hstep, List.filter_append, hdrop, List.nil_append, List.filter_cons]
  have hcond : (fun j =>
      decide (l.getD ((argsort l).getD (l.length - 2) 0) 0 < l.getD j 0))
        ((argsort l).getLast hne) = true := decide_eq_true hlastp
  rw [if_pos hcond]
  rfl

/-- **C6, counterexample.**  On the length-4 signal
`[43/4, 27/4, -37/4, -33/4]` at sample rate 8, the spectrum is
`[0, 20, -15, 3]`: the code (`argsort(f_signal)[-2]`, signed values)
selects bin 3 (frequency −2) and returns 4, while the claim's
"second-largest magnitude" rule selects bin 2 (frequency −4) and gives 2. -/
theorem c6_counterexample :
    compute_interpeak4 (43/4) (27/4) (-37/4) (-33/4) 8 = some 4 ∧
      interpeakSpecSecondMagnitude4 (43/4) (27/4) (-37/4) (-33/4) 8 =
        some 2 ∧
      (some (4 : ℤ) : Option ℤ) ≠ some 2 := by
  refine ⟨?_, ?_, by decide⟩
  · norm_num [compute_interpeak4, rfft4, fftfreq, argsort,
      List.insertionSort, List.orderedInsert, List.range_succ, npRound]
  · norm_num [interpeakSpecSecondMagnitude4, rfft4, fftfreq, argsort,
      List.insertionSort, List.orderedInsert, List.range_succ, npRound]

/-- **C6, amended.**  `compute_interpeak` selects the bin at position
`[-2]` of the *ascending argsort of the signed spectrum values* — the
second-largest **signed value**, not the second-largest magnitude — and
returns `round-half-even(sample_rate / |frequency of that bin|)`
(failing when that frequency is 0).  Stated for length-4 signals with
pairwise-distinct spectrum entries (the only lengths at which the DFT is
exactly rational; distinctness makes the sort order canonical). -/
theorem c6_amended (x0 x1 x2 x3 r : ℚ)
    (hdist : (rfft4 x0 x1 x2 x3).Pairwise (· ≠ ·))
    (hfreq : (fftfreq 4 (1 / r)).getD
        ((argsort (rfft4 x0 x1 x2 x3)).getD 2 0) 0 ≠ 0) :
    ∃ i, i < 4 ∧
      ((List.range 4).filter (fun j =>
        decide ((rfft4 x0 x1 x2 x3).getD i 0 <
          (rfft4 x0 x1 x2 x3).getD j 0))).length = 1 ∧
      compute_interpeak4 x0 x1 x2 x3 r =
        some (npRound (r / |(fftfreq 4 (1 / r)).getD i 0|)) := by
  have hlen : (rfft4 x0 x1 x2 x3).length = 4 := rfl
  refine ⟨(argsort (rfft4 x0 x1 x2 x3)).getD 2 0, ?_, ?_, ?_⟩
  · have h := argsort_getD_lt (rfft4 x0 x1 x2 x3) 2 (by rw [hlen]; omega)
    rwa [hlen] at h
  · have h := argsort_penultimate (rfft4 x0 x1 x2 x3) (by rw [hlen]; omega)
      hdist
    rwa [hlen] at h
  · have hslen : (argsort (rfft4 x0 x1 x2 x3)).length = 4 := by
      rw [argsort_length, hlen]
    unfold compute_interpeak4
    dsimp only
    rw [hslen, if_neg (by simpa using hfreq)]

/-- **C6, witness.** -/
theorem c6_witness :
    (rfft4 (43/4) (27/4) (-37/4) (-33/4)).Pairwise (· ≠ ·) ∧
      (fftfreq 4 (1 / 8)).getD
        ((argsort (rfft4 (43/4) (27/4) (-37/4) (-33/4))).getD 2 0) 0 ≠ 0 ∧
      (∃ i, i < 4 ∧
        ((List.range 4).filter (fun j =>
          decide ((rfft4 (43/4) (27/4) (-37/4) (-33/4)).getD i 0 <
            (rfft4 (43/4) (27/4) (-37/4) (-33/4)).getD j 0))).length = 1 ∧
        compute_interpeak4 (43/4) (27/4) (-37/4) (-33/4) 8 =
          some (npRound (8 / |(fftfreq 4 (1 / 8)).getD i 0|))) := by
  refine ⟨?_, ?_, c6_amended (43/4) (27/4) (-37/4) (-33/4) 8 ?_ ?_⟩ <;>
    norm_num [rfft4, fftfreq, argsort, List.insertionSort,
      List.orderedInsert, List.range_succ, List.pairwise_cons]

end Pdkit
